import Mathlib

/-!
Verification of the discrete stepwise optimizer of
`state_reconstruction_cpp/include/optimize.hpp`.

The C++ code works on `Eigen::VectorXf` (vectors of IEEE single-precision
floats).  The embedding idealizes a finite float as an exact rational and
keeps NaN as an explicit extra value, since the selection loop's behaviour
on NaN (`result < resMin` is false whenever `result` is NaN) is part of the
code's semantics.  `__FLT_MAX__`, the initial value of `resMin`, is the
rational value of the largest finite single-precision float.  Eigen's
`isZero()` convergence test is modelled as the exact all-zero test on the
offset row, matching the exact-rational idealization of the grid.
`std::map<Eigen::VectorXf,float,EigenVectorXfCompare>` compares keys
lexicographically coordinate-by-coordinate, which on same-length vectors of
(finite) coordinates is exactly vector equality; it is modelled as an
association list looked up by equality, with insertion appending a fresh
entry.  Every evaluation of the objective (`fun(key, args...)`) is recorded
in an invocation trace so that memoization claims are statable.  The extra
variadic arguments `args...` are forwarded verbatim to the objective and are
folded into the Lean function value.  The `throw std::invalid_argument`
on non-convergence is modelled by the `nonConvergence` result carrying the
final point (the C++ message embeds `toString(x)`); the out-of-bounds
`xMg.row(idxMin)` access that happens when `idxMin` is still `-1` is
modelled by the `ub` result.
-/

/-- A point of the search space: the embedding of `Eigen::VectorXf`. -/
abbrev Pt := List ℚ

/-- A single-precision value as seen by the optimizer: either NaN or a
finite value idealized as a rational. -/
inductive FVal where
  | nan : FVal
  | fin : ℚ → FVal
deriving DecidableEq, Repr

/-- C++ `<` on two float values: false whenever either operand is NaN. -/
def fltLt : FVal → FVal → Bool
  | .fin a, .fin b => a < b
  | _, _ => false

/-- Unary negation on a float value: `-NaN` stays NaN. -/
def fneg : FVal → FVal
  | .nan => .nan
  | .fin q => .fin (-q)

/-- The rational value of `__FLT_MAX__` `= (2 - 2⁻²³) · 2¹²⁷`. -/
def FLT_MAX : ℚ := 2 ^ 128 - 2 ^ 104

/-- The embedding of `std::map<Eigen::VectorXf,float,EigenVectorXfCompare>`:
an association list from points to values, looked up by exact coordinate
equality (which is what `EigenVectorXfCompare`'s lexicographic order induces
on same-length keys). -/
abbrev Cache := List (Pt × FVal)

/-- Lookup of an exact key, the embedding of `results_cache.count(key)`
followed by `results_cache[key]`. -/
def cacheLookup (c : Cache) (p : Pt) : Option FVal :=
  match c.find? (fun e => decide (e.1 = p)) with
  | some e => some e.2
  | none => none

/-- The value stored for `p`, defaulting to NaN when absent (used only to
state properties; the algorithm itself never reads an absent key). -/
def cacheValD (c : Cache) (p : Pt) : FVal :=
  (cacheLookup c p).getD .nan

/-- The value the scan will end up using for a point: the cached value if
the key is present, else a fresh evaluation of the objective. -/
def effVal (f : Pt → FVal) (c : Cache) (p : Pt) : FVal :=
  (cacheLookup c p).getD (f p)

/-- The `// Parse parameters` block of `minimize_discrete_stepwise_cpp`:
scalar broadcasting of the initial point or of the step vector. -/
def normalizeParams (x dx : Pt) : Pt × Pt :=
  if x.length = 1 ∧ 0 < dx.length then
    (List.replicate dx.length (x.getD 0 0), dx)
  else if dx.length = 1 ∧ 0 < x.length then
    (x, List.replicate x.length (dx.getD 0 0))
  else (x, dx)

/-- The neighbor-offset matrix `dxArMg`, row by row: row `i`, coordinate `j`
is `dx[j] * (i % (ranges[j] * (2k+1)) / ranges[j] - k)` with
`ranges[j] = (2k+1)^(d-j-1)` (integer division, row-major order). -/
def neighborOffsets (dx : Pt) (k : ℕ) : List Pt :=
  (List.range ((2 * k + 1) ^ dx.length)).map (fun i =>
    (List.range dx.length).map (fun j =>
      dx.getD j 0 *
        (((i % ((2 * k + 1) ^ (dx.length - j - 1) * (2 * k + 1)) /
            (2 * k + 1) ^ (dx.length - j - 1) : ℕ) : ℤ) - (k : ℤ) : ℤ)))

/-- The embedding of Eigen's `row.isZero()` on an offset row (exact zero
test under the rational idealization). -/
def isZeroRow (o : Pt) : Bool :=
  o.all (fun q => decide (q = 0))

/-- The candidate matrix `xMg = dxArMg.rowwise() + x.transpose()`,
row by row. -/
def candidates (dx : Pt) (k : ℕ) (x : Pt) : List Pt :=
  (neighborOffsets dx k).map (fun o => List.zipWith (· + ·) o x)

/-- Result of the inner `for(idx...)` scan of one iteration: the cache after
the scan, the running minimum `resMin`, the selected index `idxMin`
(still `-1` when no candidate ever compared below `resMin`), and the list
of points at which the objective was actually invoked, in order. -/
structure ScanResult where
  cache : Cache
  resMin : FVal
  idxMin : ℤ
  calls : List Pt
deriving DecidableEq, Repr

/-- The inner scan over the candidate rows: look each candidate up in the
cache (miss: evaluate `fun` once and append the entry), and keep the first
index whose value compares strictly below the running minimum. -/
def scanLoop (f : Pt → FVal) : List Pt → ℕ → Cache → FVal → ℤ → ScanResult
  | [], _, c, rm, im => ⟨c, rm, im, []⟩
  | p :: ps, idx, c, rm, im =>
    match cacheLookup c p with
    | some v =>
      if fltLt v rm then scanLoop f ps (idx + 1) c v (idx : ℤ)
      else scanLoop f ps (idx + 1) c rm im
    | none =>
      let v := f p
      let c₁ := c ++ [(p, v)]
      let r := if fltLt v rm then scanLoop f ps (idx + 1) c₁ v (idx : ℤ)
               else scanLoop f ps (idx + 1) c₁ rm im
      ⟨r.cache, r.resMin, r.idxMin, p :: r.calls⟩

/-- One iteration of the optimization loop: scan all candidates starting
from `resMin = __FLT_MAX__`, `idxMin = -1`; if `idxMin` is a valid row
index, return the selected candidate, the updated cache, the convergence
flag `dxArMg.row(idxMin).isZero()` and the invocation trace; otherwise the
C++ row access is out of bounds (`none`). -/
def stepMin (f : Pt → FVal) (dx : Pt) (k : ℕ) (x : Pt) (c : Cache) :
    Option (Pt × Cache × Bool × List Pt) :=
  let cands := candidates dx k x
  let r := scanLoop f cands 0 c (.fin FLT_MAX) (-1)
  if h : 0 ≤ r.idxMin ∧ r.idxMin.toNat < cands.length then
    some (cands.get ⟨r.idxMin.toNat, h.2⟩, r.cache,
          isZeroRow ((neighborOffsets dx k).getD r.idxMin.toNat []),
          r.calls)
  else none

/-- Outcome of one optimizer invocation: a converged point (the normal
return), the `std::invalid_argument` throw carrying the final non-optimal
point, or the undefined out-of-bounds access. Each defined outcome carries
the final state of the caller's cache. -/
inductive MinimizeResult where
  | ok (x : Pt) (c : Cache)
  | nonConvergence (x : Pt) (c : Cache)
  | ub (c : Cache)
deriving DecidableEq, Repr

/-- The caller-visible cache after an invocation. -/
def resultCache : MinimizeResult → Cache
  | .ok _ c => c
  | .nonConvergence _ c => c
  | .ub c => c

/-- The `for(i < maxiter)` optimization loop, together with the
concatenated invocation trace of all iterations. -/
def minimizeLoop (f : Pt → FVal) (dx : Pt) (k : ℕ) :
    ℕ → Pt → Cache → MinimizeResult × List Pt
  | 0, x, c => (.nonConvergence x c, [])
  | n + 1, x, c =>
    match stepMin f dx k x c with
    | none => (.ub c, [])
    | some (x', c', conv, t) =>
      if conv then (.ok x' c', t)
      else
        let r := minimizeLoop f dx k n x' c'
        (r.1, t ++ r.2)

/-- The embedding of `minimize_discrete_stepwise_cpp`: normalize the point
and step vector, then run the descent loop. Also yields the full
objective-invocation trace. -/
def minimize_discrete_stepwise_cpp (f : Pt → FVal) (x : Pt) (c : Cache)
    (dx : Pt) (k : ℕ) (maxiter : ℕ) : MinimizeResult × List Pt :=
  let p := normalizeParams x dx
  minimizeLoop f p.2 k maxiter p.1 c

/-- The embedding of `maximize_discrete_stepwise_cpp`: delegate to the
minimizer on the pointwise negated objective. -/
def maximize_discrete_stepwise_cpp (f : Pt → FVal) (x : Pt) (c : Cache)
    (dx : Pt) (k : ℕ) (maxiter : ℕ) : MinimizeResult × List Pt :=
  minimize_discrete_stepwise_cpp (fun p => fneg (f p)) x c dx k maxiter

/-- `maxiter` successive non-converging steps: `some` exactly when every
one of the `n` iterations selects a candidate whose offset row is not
all-zero, yielding the point and cache after those iterations. -/
def iterates (f : Pt → FVal) (dx : Pt) (k : ℕ) :
    ℕ → Pt → Cache → Option (Pt × Cache)
  | 0, x, c => some (x, c)
  | n + 1, x, c =>
    match stepMin f dx k x c with
    | some (x', c', false, _) => iterates f dx k n x' c'
    | _ => none

/-- Index of the first entry satisfying `p` (length of the list when there
is none). -/
def firstIdxWith (p : α → Bool) : List α → ℕ
  | [] => 0
  | a :: l => if p a then 0 else firstIdxWith p l + 1

/-- `1 + n + n² + ⋯ + nᵈ⁻¹`, the linear index whose base-`(2k+1)` digits
are all `k` is `k` times this sum. -/
def gsum (n : ℕ) : ℕ → ℕ
  | 0 => 0
  | d + 1 => 1 + n * gsum n d

/-- A constant objective, `f(x) = 0`. -/
def constZero : Pt → FVal := fun _ => .fin 0

/-- The objective `f(x) = (x[0] - 1)²`. -/
def sqShift : Pt → FVal := fun p => .fin ((p.getD 0 0 - 1) ^ 2)

/-- The objective `f(x) = -x[0]`, strictly decreasing without bound along
the first coordinate. -/
def negHead : Pt → FVal := fun p => .fin (-(p.getD 0 0))

/-- The objective `f(x) = x[0]²`. -/
def sqHead : Pt → FVal := fun p => .fin ((p.getD 0 0) ^ 2)

/-- The objective `f(x) = -x[0]²` (used to exercise the maximizer). -/
def negSq : Pt → FVal := fun p => .fin (-((p.getD 0 0) ^ 2))

/-- An objective that returns NaN everywhere. -/
def nanObj : Pt → FVal := fun _ => .nan

/-! ### Basic lemmas about the float order -/

lemma fltLt_irrefl (v : FVal) : fltLt v v = false := by
  cases v with
  | nan => rfl
  | fin q => simp [fltLt]

lemma fltLt_trans {a b c : FVal} (h₁ : fltLt a b = true) (h₂ : fltLt b c = true) :
    fltLt a c = true := by
  cases a <;> cases b <;> cases c <;> simp_all [fltLt]
  exact lt_trans h₁ h₂

lemma fltLt_asymm {a b : FVal} (h : fltLt a b = true) : fltLt b a = false := by
  cases a <;> cases b <;> simp_all [fltLt]
  exact le_of_lt h

lemma fltLt_fin_of_lt_fin {a : FVal} {q : ℚ} (h : fltLt a (.fin q) = true) :
    ∃ r, a = .fin r ∧ r < q := by
  cases a with
  | nan => simp [fltLt] at h
  | fin r => exact ⟨r, rfl, by simpa [fltLt] using h⟩

lemma fltLt_eq_of_not_lt {q r : ℚ}
    (h₁ : fltLt (.fin q) (.fin r) = false) (h₂ : fltLt (.fin r) (.fin q) = false) :
    q = r := by
  simp only [fltLt] at h₁ h₂
  have hq : ¬ q < r := by simpa using h₁
  have hr : ¬ r < q := by simpa using h₂
  exact le_antisymm (not_lt.mp hr) (not_lt.mp hq)

/-! ### Basic lemmas about the cache -/

lemma cacheLookup_append_of_some {c : Cache} {p : Pt} {v : FVal} (rest : Cache)
    (h : cacheLookup c p = some v) : cacheLookup (c ++ rest) p = some v := by
  induction c with
  | nil => simp [cacheLookup, List.find?] at h
  | cons e c ih =>
    simp only [cacheLookup, List.find?, List.cons_append] at h ⊢
    by_cases he : e.1 = p
    · simpa [he] using h
    · simp only [he, decide_eq_false_iff_not, decide_eq_true_eq] at h ⊢
      exact ih h

lemma cacheLookup_append_single_self {c : Cache} {p : Pt} (v : FVal)
    (h : cacheLookup c p = none) : cacheLookup (c ++ [(p, v)]) p = some v := by
  induction c with
  | nil => simp [cacheLookup, List.find?]
  | cons e c ih =>
    simp only [cacheLookup, List.find?, List.cons_append] at h ⊢
    by_cases he : e.1 = p
    · simp [he] at h
    · simp only [he, decide_eq_false_iff_not, decide_eq_true_eq] at h ⊢
      exact ih h

lemma cacheLookup_append_single_of_ne {c : Cache} {p q : Pt} (v : FVal)
    (hne : p ≠ q) (h : cacheLookup c q = none) :
    cacheLookup (c ++ [(p, v)]) q = none := by
  induction c with
  | nil => simp [cacheLookup, List.find?, hne]
  | cons e c ih =>
    simp only [cacheLookup, List.find?, List.cons_append] at h ⊢
    by_cases he : e.1 = q
    · simp [he] at h
    · simp only [he, decide_eq_false_iff_not, decide_eq_true_eq] at h ⊢
      exact ih h

lemma cacheValD_eq_of_lookup {c : Cache} {p : Pt} {v : FVal}
    (h : cacheLookup c p = some v) : cacheValD c p = v := by
  simp [cacheValD, h]

/-! ### Invariants of the inner candidate scan -/

lemma scanLoop_cache_preserve (f : Pt → FVal) (ps : List Pt) (idx : ℕ) (c : Cache)
    (rm : FVal) (im : ℤ) {p : Pt} {v : FVal} (h : cacheLookup c p = some v) :
    cacheLookup (scanLoop f ps idx c rm im).cache p = some v := by
  induction ps generalizing idx c rm im with
  | nil => simpa [scanLoop] using h
  | cons q ps ih =>
    cases hc : cacheLookup c q with
    | some w =>
      by_cases hlt : fltLt w rm <;> simp [scanLoop, hc, hlt] <;> exact ih _ _ _ _ h
    | none =>
      have h' : cacheLookup (c ++ [(q, f q)]) p = some v :=
        cacheLookup_append_of_some _ h
      by_cases hlt : fltLt (f q) rm <;> simp [scanLoop, hc, hlt] <;> exact ih _ _ _ _ h'

lemma scanLoop_miss_stored (f : Pt → FVal) (ps : List Pt) (idx : ℕ) (c : Cache)
    (rm : FVal) (im : ℤ) {p : Pt} (hp : p ∈ ps) (h : cacheLookup c p = none) :
    cacheLookup (scanLoop f ps idx c rm im).cache p = some (f p) := by
  induction ps generalizing idx c rm im with
  | nil => simp at hp
  | cons q ps ih =>
    cases hc : cacheLookup c q with
    | some w =>
      have hq : p ≠ q := by rintro rfl; rw [h] at hc; exact Option.noConfusion hc
      have hp' : p ∈ ps := by cases hp with
        | head => exact absurd rfl hq
        | tail _ h' => exact h'
      by_cases hlt : fltLt w rm <;> simp [scanLoop, hc, hlt] <;> exact ih _ _ _ _ hp' h
    | none =>
      by_cases hq : p = q
      · subst hq
        have h' : cacheLookup (c ++ [(p, f p)]) p = some (f p) :=
          cacheLookup_append_single_self _ h
        by_cases hlt : fltLt (f p) rm <;> simp [scanLoop, hc, hlt] <;>
          exact scanLoop_cache_preserve f ps _ _ _ _ h'
      · have hp' : p ∈ ps := by cases hp with
          | head => exact absurd rfl hq
          | tail _ h' => exact h'
        have h' : cacheLookup (c ++ [(q, f q)]) p = none :=
          cacheLookup_append_single_of_ne _ (fun he => hq he.symm) h
        by_cases hlt : fltLt (f q) rm <;> simp [scanLoop, hc, hlt] <;> exact ih _ _ _ _ hp' h'

lemma scanLoop_mem_lookup (f : Pt → FVal) (ps : List Pt) (idx : ℕ) (c : Cache)
    (rm : FVal) (im : ℤ) {p : Pt} (hp : p ∈ ps) :
    cacheValD (scanLoop f ps idx c rm im).cache p = effVal f c p := by
  cases h : cacheLookup c p with
  | some v =>
    rw [cacheValD_eq_of_lookup (scanLoop_cache_preserve f ps idx c rm im h)]
    simp [effVal, h]
  | none =>
    rw [cacheValD_eq_of_lookup (scanLoop_miss_stored f ps idx c rm im hp h)]
    simp [effVal, h]

lemma scanLoop_mem_isSome (f : Pt → FVal) (ps : List Pt) (idx : ℕ) (c : Cache)
    (rm : FVal) (im : ℤ) {p : Pt} (hp : p ∈ ps) :
    ∃ v, cacheLookup (scanLoop f ps idx c rm im).cache p = some v := by
  cases h : cacheLookup c p with
  | some v => exact ⟨v, scanLoop_cache_preserve f ps idx c rm im h⟩
  | none => exact ⟨f p, scanLoop_miss_stored f ps idx c rm im hp h⟩

lemma scanLoop_main (f : Pt → FVal) (ps : List Pt) (idx : ℕ) (c : Cache)
    (rm : FVal) (im : ℤ) :
    ((scanLoop f ps idx c rm im).resMin = rm ∧ (scanLoop f ps idx c rm im).idxMin = im) ∨
    (∃ j, ∃ h : j < ps.length,
      (scanLoop f ps idx c rm im).idxMin = (idx : ℤ) + j ∧
      fltLt (scanLoop f ps idx c rm im).resMin rm = true ∧
      cacheValD (scanLoop f ps idx c rm im).cache (ps.get ⟨j, h⟩) =
        (scanLoop f ps idx c rm im).resMin) := by
  induction ps generalizing idx c rm im with
  | nil => left; simp [scanLoop]
  | cons q ps ih =>
    cases hc : cacheLookup c q with
    | some w =>
      by_cases hlt : fltLt w rm
      · simp only [scanLoop, hc, hlt, if_true]
        rcases ih (idx + 1) c w (idx : ℤ) with ⟨h₁, h₂⟩ | ⟨j, hj, h₁, h₂, h₃⟩
        · right
          refine ⟨0, by simp, by simpa using h₂, by rw [h₁]; exact hlt, ?_⟩
          rw [h₁]
          simpa using cacheValD_eq_of_lookup
            (scanLoop_cache_preserve f ps (idx + 1) c w (idx : ℤ) hc)
        · right
          refine ⟨j + 1, by simpa using Nat.succ_lt_succ hj, ?_, fltLt_trans h₂ hlt, ?_⟩
          · rw [h₁]; push_cast; ring
          · simpa using h₃
      · simp only [scanLoop, hc, hlt, Bool.false_eq_true, if_false]
        rcases ih (idx + 1) c rm im with ⟨h₁, h₂⟩ | ⟨j, hj, h₁, h₂, h₃⟩
        · left; exact ⟨h₁, h₂⟩
        · right
          refine ⟨j + 1, by simpa using Nat.succ_lt_succ hj, ?_, h₂, by simpa using h₃⟩
          rw [h₁]; push_cast; ring
    | none =>
      by_cases hlt : fltLt (f q) rm
      · simp only [scanLoop, hc, hlt, if_true]
        rcases ih (idx + 1) (c ++ [(q, f q)]) (f q) (idx : ℤ) with
          ⟨h₁, h₂⟩ | ⟨j, hj, h₁, h₂, h₃⟩
        · right
          refine ⟨0, by simp, by simpa using h₂, by rw [h₁]; exact hlt, ?_⟩
          rw [h₁]
          simpa using cacheValD_eq_of_lookup
            (scanLoop_cache_preserve f ps (idx + 1) (c ++ [(q, f q)]) (f q) (idx : ℤ)
              (cacheLookup_append_single_self (f q) hc))
        · right
          refine ⟨j + 1, by simpa using Nat.succ_lt_succ hj, ?_, fltLt_trans h₂ hlt, ?_⟩
          · rw [h₁]; push_cast; ring
          · simpa using h₃
      · simp only [scanLoop, hc, hlt, Bool.false_eq_true, if_false]
        rcases ih (idx + 1) (c ++ [(q, f q)]) rm im with ⟨h₁, h₂⟩ | ⟨j, hj, h₁, h₂, h₃⟩
        · left; exact ⟨h₁, h₂⟩
        · right
          refine ⟨j + 1, by simpa using Nat.succ_lt_succ hj, ?_, h₂, by simpa using h₃⟩
          rw [h₁]; push_cast; ring

lemma scanLoop_no_smaller (f : Pt → FVal) (ps : List Pt) (idx : ℕ) (c : Cache)
    (rm : FVal) (im : ℤ) :
    ∀ p ∈ ps, fltLt (cacheValD (scanLoop f ps idx c rm im).cache p)
      (scanLoop f ps idx c rm im).resMin = false := by
  induction ps generalizing idx c rm im with
  | nil => simp
  | cons q ps ih =>
    intro p hp
    cases hc : cacheLookup c q with
    | some w =>
      by_cases hlt : fltLt w rm
      · simp only [scanLoop, hc, hlt, if_true]
        cases hp with
        | head =>
          rw [cacheValD_eq_of_lookup (scanLoop_cache_preserve f ps (idx + 1) c w (idx : ℤ) hc)]
          rcases scanLoop_main f ps (idx + 1) c w (idx : ℤ) with ⟨h₁, _⟩ | ⟨_, _, _, h₂, _⟩
          · rw [h₁]; exact fltLt_irrefl w
          · exact fltLt_asymm h₂
        | tail _ hp' => exact ih (idx + 1) c w (idx : ℤ) p hp'
      · simp only [scanLoop, hc, hlt, Bool.false_eq_true, if_false]
        cases hp with
        | head =>
          rw [cacheValD_eq_of_lookup (scanLoop_cache_preserve f ps (idx + 1) c rm im hc)]
          rcases scanLoop_main f ps (idx + 1) c rm im with ⟨h₁, _⟩ | ⟨_, _, _, h₂, _⟩
          · rw [h₁]; exact Bool.eq_false_iff.mpr hlt
          · by_cases hq : fltLt w (scanLoop f ps (idx + 1) c rm im).resMin
            · exact absurd (fltLt_trans hq h₂) hlt
            · exact Bool.eq_false_iff.mpr hq
        | tail _ hp' => exact ih (idx + 1) c rm im p hp'
    | none =>
      have hstore : cacheLookup (c ++ [(q, f q)]) q = some (f q) :=
        cacheLookup_append_single_self _ hc
      by_cases hlt : fltLt (f q) rm
      · simp only [scanLoop, hc, hlt, if_true]
        cases hp with
        | head =>
          rw [cacheValD_eq_of_lookup
            (scanLoop_cache_preserve f ps (idx + 1) (c ++ [(q, f q)]) (f q) (idx : ℤ) hstore)]
          rcases scanLoop_main f ps (idx + 1) (c ++ [(q, f q)]) (f q) (idx : ℤ) with
            ⟨h₁, _⟩ | ⟨_, _, _, h₂, _⟩
          · rw [h₁]; exact fltLt_irrefl _
          · exact fltLt_asymm h₂
        | tail _ hp' => exact ih (idx + 1) (c ++ [(q, f q)]) (f q) (idx : ℤ) p hp'
      · simp only [scanLoop, hc, hlt, Bool.false_eq_true, if_false]
        cases hp with
        | head =>
          rw [cacheValD_eq_of_lookup
            (scanLoop_cache_preserve f ps (idx + 1) (c ++ [(q, f q)]) rm im hstore)]
          rcases scanLoop_main f ps (idx + 1) (c ++ [(q, f q)]) rm im with
            ⟨h₁, _⟩ | ⟨_, _, _, h₂, _⟩
          · rw [h₁]; exact Bool.eq_false_iff.mpr hlt
          · by_cases hq : fltLt (f q) (scanLoop f ps (idx + 1) (c ++ [(q, f q)]) rm im).resMin
            · exact absurd (fltLt_trans hq h₂) hlt
            · exact Bool.eq_false_iff.mpr hq
        | tail _ hp' => exact ih (idx + 1) (c ++ [(q, f q)]) rm im p hp'

lemma scanLoop_first_min (f : Pt → FVal) (ps : List Pt) (idx : ℕ) (c : Cache)
    (rm : FVal) (im : ℤ) (him : im < (idx : ℤ)) :
    ∀ j, ∀ h : j < ps.length, (idx : ℤ) + j < (scanLoop f ps idx c rm im).idxMin →
      cacheValD (scanLoop f ps idx c rm im).cache (ps.get ⟨j, h⟩) ≠
        (scanLoop f ps idx c rm im).resMin := by
  induction ps generalizing idx c rm im with
  | nil => simp
  | cons q ps ih =>
    intro j hj hsel
    cases hc : cacheLookup c q with
    | some w =>
      by_cases hlt : fltLt w rm
      · simp only [scanLoop, hc, hlt, if_true] at hsel ⊢
        cases j with
        | zero =>
          simp only [List.get]
          rw [cacheValD_eq_of_lookup (scanLoop_cache_preserve f ps (idx + 1) c w (idx : ℤ) hc)]
          rcases scanLoop_main f ps (idx + 1) c w (idx : ℤ) with ⟨_, h₂⟩ | ⟨_, _, _, h₂, _⟩
          · rw [h₂] at hsel; omega
          · intro he; rw [← he] at h₂; exact absurd h₂ (by simp [fltLt_irrefl])
        | succ j' =>
          have := ih (idx + 1) c w (idx : ℤ) (by omega) j' (by simpa using hj)
            (by push_cast at hsel ⊢; omega)
          simpa using this
      · simp only [scanLoop, hc, hlt, Bool.false_eq_true, if_false] at hsel ⊢
        cases j with
        | zero =>
          simp only [List.get]
          rw [cacheValD_eq_of_lookup (scanLoop_cache_preserve f ps (idx + 1) c rm im hc)]
          rcases scanLoop_main f ps (idx + 1) c rm im with ⟨_, h₂⟩ | ⟨_, _, _, h₂, _⟩
          · rw [h₂] at hsel; omega
          · intro he; rw [← he] at h₂; exact absurd h₂ hlt
        | succ j' =>
          have := ih (idx + 1) c rm im (by omega) j' (by simpa using hj)
            (by push_cast at hsel ⊢; omega)
          simpa using this
    | none =>
      have hstore : cacheLookup (c ++ [(q, f q)]) q = some (f q) :=
        cacheLookup_append_single_self _ hc
      by_cases hlt : fltLt (f q) rm
      · simp only [scanLoop, hc, hlt, if_true] at hsel ⊢
        cases j with
        | zero =>
          simp only [List.get]
          rw [cacheValD_eq_of_lookup
            (scanLoop_cache_preserve f ps (idx + 1) (c ++ [(q, f q)]) (f q) (idx : ℤ) hstore)]
          rcases scanLoop_main f ps (idx + 1) (c ++ [(q, f q)]) (f q) (idx : ℤ) with
            ⟨_, h₂⟩ | ⟨_, _, _, h₂, _⟩
          · rw [h₂] at hsel; omega
          · intro he; rw [← he] at h₂; exact absurd h₂ (by simp [fltLt_irrefl])
        | succ j' =>
          have := ih (idx + 1) (c ++ [(q, f q)]) (f q) (idx : ℤ) (by omega) j'
            (by simpa using hj) (by push_cast at hsel ⊢; omega)
          simpa using this
      · simp only [scanLoop, hc, hlt, Bool.false_eq_true, if_false] at hsel ⊢
        cases j with
        | zero =>
          simp only [List.get]
          rw [cacheValD_eq_of_lookup
            (scanLoop_cache_preserve f ps (idx + 1) (c ++ [(q, f q)]) rm im hstore)]
          rcases scanLoop_main f ps (idx + 1) (c ++ [(q, f q)]) rm im with
            ⟨_, h₂⟩ | ⟨_, _, _, h₂, _⟩
          · rw [h₂] at hsel; omega
          · intro he; rw [← he] at h₂; exact absurd h₂ hlt
        | succ j' =>
          have := ih (idx + 1) (c ++ [(q, f q)]) rm im (by omega) j'
            (by simpa using hj) (by push_cast at hsel ⊢; omega)
          simpa using this

lemma cacheLookup_none_of_append_none {c : Cache} {rest : Cache} {p : Pt}
    (h : cacheLookup (c ++ rest) p = none) : cacheLookup c p = none := by
  cases hc : cacheLookup c p with
  | none => rfl
  | some v => rw [cacheLookup_append_of_some rest hc] at h; exact Option.noConfusion h

lemma scanLoop_calls_fresh (f : Pt → FVal) (ps : List Pt) (idx : ℕ) (c : Cache)
    (rm : FVal) (im : ℤ) :
    (scanLoop f ps idx c rm im).calls.Nodup ∧
    ∀ p ∈ (scanLoop f ps idx c rm im).calls, cacheLookup c p = none := by
  induction ps generalizing idx c rm im with
  | nil => simp [scanLoop]
  | cons q ps ih =>
    cases hc : cacheLookup c q with
    | some w =>
      by_cases hlt : fltLt w rm
      · simp only [scanLoop, hc, hlt, if_true]; exact ih (idx + 1) c w (idx : ℤ)
      · simp only [scanLoop, hc, hlt, Bool.false_eq_true, if_false]
        exact ih (idx + 1) c rm im
    | none =>
      have hstore : cacheLookup (c ++ [(q, f q)]) q = some (f q) :=
        cacheLookup_append_single_self _ hc
      have key : ∀ rm' im',
          ((q :: (scanLoop f ps (idx + 1) (c ++ [(q, f q)]) rm' im').calls).Nodup ∧
           ∀ p ∈ q :: (scanLoop f ps (idx + 1) (c ++ [(q, f q)]) rm' im').calls,
             cacheLookup c p = none) := by
        intro rm' im'
        obtain ⟨hnd, hfresh⟩ := ih (idx + 1) (c ++ [(q, f q)]) rm' im'
        refine ⟨List.nodup_cons.mpr ⟨fun hq => ?_, hnd⟩, ?_⟩
        · rw [hfresh q hq] at hstore; exact Option.noConfusion hstore
        · intro p hp
          cases hp with
          | head => exact hc
          | tail _ hp' => exact cacheLookup_none_of_append_none (hfresh p hp')
      by_cases hlt : fltLt (f q) rm
      · simp only [scanLoop, hc, hlt, if_true]; exact key (f q) (idx : ℤ)
      · simp only [scanLoop, hc, hlt, Bool.false_eq_true, if_false]; exact key rm im

lemma scanLoop_calls_stored (f : Pt → FVal) (ps : List Pt) (idx : ℕ) (c : Cache)
    (rm : FVal) (im : ℤ) :
    ∀ p ∈ (scanLoop f ps idx c rm im).calls,
      cacheLookup (scanLoop f ps idx c rm im).cache p = some (f p) := by
  induction ps generalizing idx c rm im with
  | nil => simp [scanLoop]
  | cons q ps ih =>
    intro p hp
    cases hc : cacheLookup c q with
    | some w =>
      by_cases hlt : fltLt w rm
      · simp only [scanLoop, hc, hlt, if_true] at hp ⊢
        exact ih (idx + 1) c w (idx : ℤ) p hp
      · simp only [scanLoop, hc, hlt, Bool.false_eq_true, if_false] at hp ⊢
        exact ih (idx + 1) c rm im p hp
    | none =>
      have hstore : cacheLookup (c ++ [(q, f q)]) q = some (f q) :=
        cacheLookup_append_single_self _ hc
      by_cases hlt : fltLt (f q) rm
      · simp only [scanLoop, hc, hlt, if_true] at hp ⊢
        cases hp with
        | head => exact scanLoop_cache_preserve f ps (idx + 1) _ (f q) (idx : ℤ) hstore
        | tail _ hp' => exact ih (idx + 1) (c ++ [(q, f q)]) (f q) (idx : ℤ) p hp'
      · simp only [scanLoop, hc, hlt, Bool.false_eq_true, if_false] at hp ⊢
        cases hp with
        | head => exact scanLoop_cache_preserve f ps (idx + 1) _ rm im hstore
        | tail _ hp' => exact ih (idx + 1) (c ++ [(q, f q)]) rm im p hp'

/-! ### Lengths and zero rows of the neighbor lattice -/

lemma neighborOffsets_length (dx : Pt) (k : ℕ) :
    (neighborOffsets dx k).length = (2 * k + 1) ^ dx.length := by
  simp [neighborOffsets]

lemma neighborOffsets_row_length {dx : Pt} {k : ℕ} {o : Pt}
    (h : o ∈ neighborOffsets dx k) : o.length = dx.length := by
  obtain ⟨i, _, rfl⟩ := List.mem_map.mp h
  simp

lemma candidates_length (dx : Pt) (k : ℕ) (x : Pt) :
    (candidates dx k x).length = (2 * k + 1) ^ dx.length := by
  simp [candidates, neighborOffsets_length]

lemma zipWith_add_of_isZeroRow {o x : Pt} (hz : isZeroRow o = true)
    (hlen : o.length = x.length) : List.zipWith (· + ·) o x = x := by
  induction o generalizing x with
  | nil => cases x with
    | nil => rfl
    | cons a x => simp at hlen
  | cons b o ih =>
    cases x with
    | nil => simp at hlen
    | cons a x =>
      simp only [isZeroRow, List.all_cons, Bool.and_eq_true, decide_eq_true_eq] at hz
      simp only [List.zipWith_cons_cons, List.cons.injEq]
      exact ⟨by rw [hz.1]; ring, ih hz.2 (by simpa using hlen)⟩

lemma candidate_row_length {dx x : Pt} {k : ℕ} (hlen : x.length = dx.length)
    {p : Pt} (hp : p ∈ candidates dx k x) : p.length = dx.length := by
  obtain ⟨o, ho, rfl⟩ := List.mem_map.mp hp
  simp [neighborOffsets_row_length ho, hlen]

/-! ### Unpacking one iteration -/

lemma stepMin_eq_some {f : Pt → FVal} {dx : Pt} {k : ℕ} {x : Pt} {c : Cache}
    {x' : Pt} {c' : Cache} {conv : Bool} {t : List Pt}
    (h : stepMin f dx k x c = some (x', c', conv, t)) :
    ∃ i, ∃ hi : i < (candidates dx k x).length,
      (scanLoop f (candidates dx k x) 0 c (.fin FLT_MAX) (-1)).idxMin = (i : ℤ) ∧
      x' = (candidates dx k x).get ⟨i, hi⟩ ∧
      c' = (scanLoop f (candidates dx k x) 0 c (.fin FLT_MAX) (-1)).cache ∧
      conv = isZeroRow ((neighborOffsets dx k).getD i []) ∧
      t = (scanLoop f (candidates dx k x) 0 c (.fin FLT_MAX) (-1)).calls := by
  rw [stepMin] at h
  split at h
  case isTrue h0 =>
    refine ⟨(scanLoop f (candidates dx k x) 0 c (.fin FLT_MAX) (-1)).idxMin.toNat, h0.2,
      (Int.toNat_of_nonneg h0.1).symm, ?_⟩
    obtain ⟨h₁, h₂, h₃, h₄⟩ := Prod.mk.injEq .. ▸ (Option.some.injEq .. ▸ h :)
    exact ⟨h₁.symm, by simp_all⟩
  case isFalse => exact Option.noConfusion h

/-! ### Invariants of the outer optimization loop -/

lemma minimizeLoop_cache_preserve (f : Pt → FVal) (dx : Pt) (k n : ℕ) (x : Pt)
    (c : Cache) {p : Pt} {v : FVal} (h : cacheLookup c p = some v) :
    cacheLookup (resultCache (minimizeLoop f dx k n x c).1) p = some v := by
  induction n generalizing x c with
  | zero => simpa [minimizeLoop, resultCache] using h
  | succ n ih =>
    cases hstep : stepMin f dx k x c with
    | none => simpa [minimizeLoop, hstep, resultCache] using h
    | some y =>
      obtain ⟨x', c', conv, t⟩ := y
      obtain ⟨i, hi, _, _, hc', _, _⟩ := stepMin_eq_some hstep
      have hpres : cacheLookup c' p = some v := by
        rw [hc']; exact scanLoop_cache_preserve f _ 0 c _ _ h
      cases conv with
      | true => simpa [minimizeLoop, hstep, resultCache] using hpres
      | false =>
        simp only [minimizeLoop, hstep, Bool.false_eq_true, if_false]
        exact ih x' c' hpres

lemma cacheLookup_none_of_scan_none {f : Pt → FVal} {ps : List Pt} {idx : ℕ}
    {c : Cache} {rm : FVal} {im : ℤ} {p : Pt}
    (h : cacheLookup (scanLoop f ps idx c rm im).cache p = none) :
    cacheLookup c p = none := by
  cases hc : cacheLookup c p with
  | none => rfl
  | some v => rw [scanLoop_cache_preserve f ps idx c rm im hc] at h; exact Option.noConfusion h

lemma minimizeLoop_calls_spec (f : Pt → FVal) (dx : Pt) (k n : ℕ) (x : Pt) (c : Cache) :
    (minimizeLoop f dx k n x c).2.Nodup ∧
    (∀ p ∈ (minimizeLoop f dx k n x c).2, cacheLookup c p = none) ∧
    (∀ p ∈ (minimizeLoop f dx k n x c).2,
      cacheLookup (resultCache (minimizeLoop f dx k n x c).1) p = some (f p)) := by
  induction n generalizing x c with
  | zero => simp [minimizeLoop]
  | succ n ih =>
    cases hstep : stepMin f dx k x c with
    | none => simp [minimizeLoop, hstep]
    | some y =>
      obtain ⟨x', c', conv, t⟩ := y
      obtain ⟨i, hi, _, _, hc', _, ht⟩ := stepMin_eq_some hstep
      have hfresh := scanLoop_calls_fresh f (candidates dx k x) 0 c (.fin FLT_MAX) (-1)
      have hstored := scanLoop_calls_stored f (candidates dx k x) 0 c (.fin FLT_MAX) (-1)
      cases conv with
      | true =>
        simp only [minimizeLoop, hstep, if_true, resultCache]
        subst ht hc'
        exact ⟨hfresh.1, hfresh.2, hstored⟩
      | false =>
        simp only [minimizeLoop, hstep, Bool.false_eq_true, if_false, resultCache]
        obtain ⟨ihnd, ihfresh, ihstored⟩ := ih x' c'
        subst ht hc'
        refine ⟨List.nodup_append.mpr ⟨hfresh.1, ihnd, ?_⟩, ?_, ?_⟩
        · intro p hp hp'
          have h₁ := hstored p hp
          have h₂ := ihfresh p hp'
          rw [h₂] at h₁; exact Option.noConfusion h₁
        · intro p hp
          rcases List.mem_append.mp hp with hp' | hp'
          · exact hfresh.2 p hp'
          · exact cacheLookup_none_of_scan_none (ihfresh p hp')
        · intro p hp
          rcases List.mem_append.mp hp with hp' | hp'
          · exact minimizeLoop_cache_preserve f dx k n x' _ (hstored p hp')
          · exact ihstored p hp'

/-! ### Mixed-radix digit arithmetic for the zero row of the lattice -/

lemma gsum_succ_pow (n d : ℕ) : gsum n (d + 1) = n ^ d + gsum n d := by
  induction d with
  | zero => simp [gsum]
  | succ d ih =>
    calc gsum n (d + 2) = 1 + n * gsum n (d + 1) := rfl
    _ = 1 + n * (n ^ d + gsum n d) := by rw [ih]
    _ = n ^ (d + 1) + (1 + n * gsum n d) := by ring
    _ = n ^ (d + 1) + gsum n (d + 1) := rfl

lemma mul_gsum_lt {n k : ℕ} (hk : k < n) (d : ℕ) : k * gsum n d < n ^ d := by
  induction d with
  | zero => simp [gsum]
  | succ d ih =>
    rw [gsum_succ_pow, Nat.mul_add]
    have h1 : k * n ^ d + k * gsum n d < k * n ^ d + n ^ d := by omega
    have h2 : k * n ^ d + n ^ d = (k + 1) * n ^ d := by ring
    have h3 : (k + 1) * n ^ d ≤ n * n ^ d := Nat.mul_le_mul_right _ hk
    have h4 : n * n ^ d = n ^ (d + 1) := (pow_succ' n d).symm
    omega

lemma digit_add_high (n k a : ℕ) {d j : ℕ} (hn : 0 < n) (hj : j < d) :
    (a + k * n ^ d) / n ^ (d - j - 1) % n = a / n ^ (d - j - 1) % n := by
  have hsplit : n ^ d = n ^ (j + 1) * n ^ (d - j - 1) := by
    rw [← pow_add]; congr 1; omega
  have h1 : a + k * n ^ d = a + k * n ^ (j + 1) * n ^ (d - j - 1) := by
    rw [hsplit]; ring
  rw [h1, Nat.add_mul_div_right _ _ (pow_pos hn _)]
  have h2 : k * n ^ (j + 1) = k * n ^ j * n := by rw [pow_succ]; ring
  rw [h2, Nat.add_mul_mod_self_right]

lemma digit_top {n k a : ℕ} (d : ℕ) (hk : k < n) (ha : a < n ^ d) :
    (a + k * n ^ d) / n ^ d % n = k := by
  rw [Nat.add_mul_div_right _ _ (pow_pos (by omega : 0 < n) d),
    Nat.div_eq_of_lt ha, Nat.zero_add, Nat.mod_eq_of_lt hk]

lemma digit_mul_gsum {n k : ℕ} (hk : k < n) (d : ℕ) :
    ∀ j < d, k * gsum n d / n ^ (d - j - 1) % n = k := by
  induction d with
  | zero => omega
  | succ d ih =>
    intro j hj
    have hrw : k * gsum n (d + 1) = k * gsum n d + k * n ^ d := by
      rw [gsum_succ_pow]; ring
    cases j with
    | zero =>
      have he : d + 1 - 0 - 1 = d := by omega
      rw [hrw, he, digit_top d hk (mul_gsum_lt hk d)]
    | succ j' =>
      have hj' : j' < d := by omega
      have he : d + 1 - (j' + 1) - 1 = d - j' - 1 := by omega
      rw [hrw, he, digit_add_high n k _ (by omega) hj']
      exact ih j' hj'

lemma eq_mul_gsum_of_digits {n k : ℕ} (hk : k < n) (d : ℕ) :
    ∀ i < n ^ d, (∀ j < d, i / n ^ (d - j - 1) % n = k) → i = k * gsum n d := by
  induction d with
  | zero => intro i hi _; simpa [gsum] using Nat.lt_one_iff.mp (by simpa using hi)
  | succ d ih =>
    intro i hi hdig
    have hn : 0 < n := by omega
    have hpow : 0 < n ^ d := pow_pos hn d
    have htop : i / n ^ d = k := by
      have h0 := hdig 0 (by omega)
      have he : d + 1 - 0 - 1 = d := by omega
      rw [he] at h0
      have hlt : i / n ^ d < n := by
        apply Nat.div_lt_of_lt_mul
        calc i < n ^ (d + 1) := hi
        _ = n ^ d * n := pow_succ n d
      rwa [Nat.mod_eq_of_lt hlt] at h0
    have hsplit : i = i % n ^ d + k * n ^ d := by
      conv_lhs => rw [← Nat.mod_add_div i (n ^ d)]
      rw [htop]; ring
    have hrest : i % n ^ d = k * gsum n d := by
      apply ih (i % n ^ d) (Nat.mod_lt _ hpow)
      intro j hj
      have h1 := hdig (j + 1) (by omega)
      have he : d + 1 - (j + 1) - 1 = d - j - 1 := by omega
      rw [he] at h1
      rw [hsplit, digit_add_high n k _ hn hj] at h1
      exact h1
    rw [hsplit, hrest, gsum_succ_pow]
    ring

lemma neighborOffsets_getD (dx : Pt) (k i : ℕ) (hi : i < (2 * k + 1) ^ dx.length) :
    (neighborOffsets dx k).getD i [] =
      (List.range dx.length).map (fun j =>
        dx.getD j 0 *
          (((i % ((2 * k + 1) ^ (dx.length - j - 1) * (2 * k + 1)) /
              (2 * k + 1) ^ (dx.length - j - 1) : ℕ) : ℤ) - (k : ℤ) : ℤ)) := by
  have hi' : i < (neighborOffsets dx k).length := by
    rw [neighborOffsets_length]; exact hi
  rw [List.getD_eq_get _ _ hi']
  simp [neighborOffsets, List.get_map, List.get_range]

lemma row_zero_iff (dx : Pt) (k : ℕ) (hnz : ∀ q ∈ dx, q ≠ 0) (i : ℕ)
    (hi : i < (2 * k + 1) ^ dx.length) :
    ((neighborOffsets dx k).getD i [] = List.replicate dx.length (0 : ℚ)) ↔
    (∀ j < dx.length, i / (2 * k + 1) ^ (dx.length - j - 1) % (2 * k + 1) = k) := by
  rw [neighborOffsets_getD dx k i hi, List.eq_replicate]
  simp only [List.length_map, List.length_range, true_and]
  have hdx : ∀ j, j < dx.length → dx.getD j 0 ≠ 0 := by
    intro j hj
    rw [List.getD_eq_get _ _ hj]
    exact hnz _ (List.get_mem dx j hj)
  constructor
  · intro h j hj
    have hval := h _ (List.mem_map.mpr ⟨j, List.mem_range.mpr hj, rfl⟩)
    rcases mul_eq_zero.mp hval with h0 | h0
    · exact absurd h0 (hdx j hj)
    · have hz : ((i % ((2 * k + 1) ^ (dx.length - j - 1) * (2 * k + 1)) /
          (2 * k + 1) ^ (dx.length - j - 1) : ℕ) : ℤ) - (k : ℤ) = 0 := by
        exact_mod_cast h0
      have hz' : i % ((2 * k + 1) ^ (dx.length - j - 1) * (2 * k + 1)) /
          (2 * k + 1) ^ (dx.length - j - 1) = k := by omega
      rw [← Nat.mod_mul_right_div_self]
      exact hz'
  · intro h b hb
    obtain ⟨j, hj, rfl⟩ := List.mem_map.mp hb
    have hj' := List.mem_range.mp hj
    have hd := h j hj'
    rw [Nat.mod_mul_right_div_self, hd]
    simp

lemma zmid_lt (k d : ℕ) : k * gsum (2 * k + 1) d < (2 * k + 1) ^ d :=
  mul_gsum_lt (by omega) d

lemma zmid_row_isZero (dx : Pt) (k : ℕ) :
    isZeroRow ((neighborOffsets dx k).getD (k * gsum (2 * k + 1) dx.length) []) = true := by
  rw [neighborOffsets_getD _ _ _ (zmid_lt k dx.length), isZeroRow]
  apply List.all_eq_true.mpr
  intro b hb
  obtain ⟨j, hj, rfl⟩ := List.mem_map.mp hb
  have hj' := List.mem_range.mp hj
  rw [decide_eq_true_eq, Nat.mod_mul_right_div_self,
    digit_mul_gsum (by omega : k < 2 * k + 1) dx.length j hj']
  simp

lemma zero_row_unique (dx : Pt) (k : ℕ) (hnz : ∀ q ∈ dx, q ≠ 0) (i : ℕ)
    (hi : i < (2 * k + 1) ^ dx.length) :
    ((neighborOffsets dx k).getD i [] = List.replicate dx.length (0 : ℚ)) ↔
    i = k * gsum (2 * k + 1) dx.length := by
  rw [row_zero_iff dx k hnz i hi]
  constructor
  · intro h
    exact eq_mul_gsum_of_digits (by omega : k < 2 * k + 1) dx.length i hi h
  · rintro rfl j hj
    exact digit_mul_gsum (by omega : k < 2 * k + 1) dx.length j hj

lemma zero_row_countP (dx : Pt) (k : ℕ) (hnz : ∀ q ∈ dx, q ≠ 0) :
    (neighborOffsets dx k).countP
      (fun o => decide (o = List.replicate dx.length (0 : ℚ))) = 1 := by
  rw [neighborOffsets, List.countP_map]
  have hcong : List.countP
      ((fun o => decide (o = List.replicate dx.length (0 : ℚ))) ∘ (fun i =>
        (List.range dx.length).map (fun j =>
          dx.getD j 0 *
            (((i % ((2 * k + 1) ^ (dx.length - j - 1) * (2 * k + 1)) /
                (2 * k + 1) ^ (dx.length - j - 1) : ℕ) : ℤ) - (k : ℤ) : ℤ))))
      (List.range ((2 * k + 1) ^ dx.length)) =
      List.countP (fun i => decide (i = k * gsum (2 * k + 1) dx.length))
        (List.range ((2 * k + 1) ^ dx.length)) := by
    apply List.countP_congr
    intro i hi
    have hi' := List.mem_range.mp hi
    simp only [Function.comp_apply, decide_eq_true_eq]
    rw [← neighborOffsets_getD dx k i hi']
    exact zero_row_unique dx k hnz i hi'
  rw [hcong]
  have hbeq : List.countP (fun i => decide (i = k * gsum (2 * k + 1) dx.length))
      (List.range ((2 * k + 1) ^ dx.length)) =
      List.count (k * gsum (2 * k + 1) dx.length)
        (List.range ((2 * k + 1) ^ dx.length)) := by
    rw [List.count_eq_countP]
    apply List.countP_congr
    intro i _
    simp [beq_iff_eq]
  rw [hbeq]
  exact List.nodup_iff_count_eq_one.mp (List.nodup_range _) _
    (List.mem_range.mpr (zmid_lt k dx.length))

/-! ### The first all-zero offset row -/

lemma firstIdxWith_lt_length {p : α → Bool} {l : List α} (h : ∃ a ∈ l, p a = true) :
    firstIdxWith p l < l.length := by
  induction l with
  | nil => simp at h
  | cons a l ih =>
    by_cases ha : p a
    · simp [firstIdxWith, ha]
    · obtain ⟨b, hb, hpb⟩ := h
      have hb' : b ∈ l := by
        cases hb with
        | head => exact absurd hpb (by simpa using ha)
        | tail _ h' => exact h'
      simpa [firstIdxWith, ha] using ih ⟨b, hb', hpb⟩

lemma firstIdxWith_get {p : α → Bool} {l : List α}
    (h : firstIdxWith p l < l.length) :
    p (l.get ⟨firstIdxWith p l, h⟩) = true := by
  induction l with
  | nil => simp at h
  | cons a l ih =>
    by_cases ha : p a
    · simpa [firstIdxWith, ha] using ha
    · have h' : firstIdxWith p l < l.length := by
        have hrw : firstIdxWith p (a :: l) = firstIdxWith p l + 1 := by
          simp [firstIdxWith, ha]
        rw [hrw] at h
        simpa using h
      simp only [firstIdxWith, ha, Bool.false_eq_true, if_false]
      simpa using ih h'

/-! ### Claim C7: parameter normalization / broadcasting -/

/-- C7: if the initial point has exactly one coordinate and the step vector
has more than zero coordinates, the point is broadcast to the step vector's
length (every coordinate the original scalar); symmetrically the step
vector is broadcast to the point's length; in particular point `[2.0]` with
step `[0.5, 0.5, 0.5]` normalizes the point to `[2.0, 2.0, 2.0]`, and point
`[1.0, 2.0]` with step `[0.1]` normalizes the step to `[0.1, 0.1]`. -/
theorem c7_broadcast :
    (∀ x dx : Pt, x.length = 1 → 0 < dx.length →
      normalizeParams x dx = (List.replicate dx.length (x.getD 0 0), dx)) ∧
    (∀ x dx : Pt, dx.length = 1 → 0 < x.length →
      normalizeParams x dx = (x, List.replicate x.length (dx.getD 0 0))) ∧
    normalizeParams [(2 : ℚ)] [1/2, 1/2, 1/2] = ([2, 2, 2], [1/2, 1/2, 1/2]) ∧
    normalizeParams [(1 : ℚ), 2] [1/10] = ([1, 2], [1/10, 1/10]) := by
  refine ⟨?_, ?_, by norm_num [normalizeParams, List.replicate_succ],
    by norm_num [normalizeParams, List.replicate_succ]⟩
  · intro x dx hx hdx
    simp [normalizeParams, hx, hdx]
  · intro x dx hdx hx
    by_cases hx1 : x.length = 1
    · obtain ⟨a, rfl⟩ := List.length_eq_one.mp hx1
      obtain ⟨b, rfl⟩ := List.length_eq_one.mp hdx
      simp [normalizeParams]
    · simp [normalizeParams, hx1, hdx, hx]

/-- Witness for C7 at a concrete input. -/
theorem c7_broadcast_witness :
    normalizeParams [(5 : ℚ)] [1, 2] = ([5, 5], [1, 2]) :=
  c7_broadcast.1 [5] [1, 2] rfl (by decide)

/-! ### Claim C9: cache monotonicity -/

/-- C9: every cache entry present before a minimize or maximize invocation
is still present afterwards with the same value, whatever the outcome; the
cache only gains entries. -/
theorem c9_cache_monotone (f : Pt → FVal) (x : Pt) (c : Cache) (dx : Pt)
    (k m : ℕ) (p : Pt) (v : FVal) (h : cacheLookup c p = some v) :
    cacheLookup (resultCache (minimize_discrete_stepwise_cpp f x c dx k m).1) p
      = some v ∧
    cacheLookup (resultCache (maximize_discrete_stepwise_cpp f x c dx k m).1) p
      = some v :=
  ⟨minimizeLoop_cache_preserve f (normalizeParams x dx).2 k m
      (normalizeParams x dx).1 c h,
   minimizeLoop_cache_preserve (fun q => fneg (f q)) (normalizeParams x dx).2 k m
      (normalizeParams x dx).1 c h⟩

/-- Witness for C9 at a concrete input with a pre-populated cache. -/
theorem c9_cache_monotone_witness :
    cacheLookup (resultCache
      (minimize_discrete_stepwise_cpp constZero [0] [([0], .fin 7)] [1] 1 3).1) [0]
      = some (.fin 7) ∧
    cacheLookup (resultCache
      (maximize_discrete_stepwise_cpp constZero [0] [([0], .fin 7)] [1] 1 3).1) [0]
      = some (.fin 7) :=
  c9_cache_monotone constZero [0] [([0], .fin 7)] [1] 1 3 [0] (.fin 7) (by decide)

/-! ### Claim C8: minimize/maximize duality -/

/-- C8: the maximizer returns the very result of the minimizer applied to
the pointwise negated objective with the same parameters (failures
propagate unchanged), and after a maximize call the cache maps every
evaluated point to the negated objective value. -/
theorem c8_duality (f : Pt → FVal) (x : Pt) (c : Cache) (dx : Pt) (k m : ℕ) :
    maximize_discrete_stepwise_cpp f x c dx k m =
      minimize_discrete_stepwise_cpp (fun p => fneg (f p)) x c dx k m ∧
    (∀ res t, maximize_discrete_stepwise_cpp f x c dx k m = (res, t) →
      ∀ p ∈ t, cacheLookup (resultCache res) p = some (fneg (f p))) := by
  refine ⟨rfl, ?_⟩
  intro res t h p hp
  have hspec := (minimizeLoop_calls_spec (fun q => fneg (f q))
    (normalizeParams x dx).2 k m (normalizeParams x dx).1 c).2.2
  have h' : minimizeLoop (fun q => fneg (f q)) (normalizeParams x dx).2 k m
      (normalizeParams x dx).1 c = (res, t) := h
  rw [h'] at hspec
  exact hspec p hp

/-- Witness for C8: a maximize run whose cache holds negated values. -/
theorem c8_duality_witness :
    cacheLookup (resultCache (MinimizeResult.ok [0]
      [([-1], FVal.fin 1), ([0], FVal.fin 0), ([1], FVal.fin 1)])) [-1]
      = some (fneg (negSq [-1])) := by
  have s1 : stepMin (fun p => fneg (negSq p)) [1] 1 [0] [] =
      some ([0], [([-1], .fin 1), ([0], .fin 0), ([1], .fin 1)], true,
        [[-1], [0], [1]]) := by
    norm_num [stepMin, scanLoop, candidates, neighborOffsets, cacheLookup, isZeroRow,
      fltLt, FLT_MAX, negSq, fneg, List.range_succ, Int.toNat,
      List.getElem_cons_succ, List.getElem_cons_zero]
  have hrun : maximize_discrete_stepwise_cpp negSq [0] [] [1] 1 5 =
      (MinimizeResult.ok [0] [([-1], FVal.fin 1), ([0], FVal.fin 0), ([1], FVal.fin 1)],
       [[-1], [0], [1]]) := by
    show minimizeLoop (fun p => fneg (negSq p)) (normalizeParams [0] [1]).2 1 5
      (normalizeParams [0] [1]).1 [] = _
    norm_num [normalizeParams, List.replicate_succ]
    simp only [minimizeLoop, s1, if_true]
  exact (c8_duality negSq [0] [] [1] 1 5).2
    (MinimizeResult.ok [0] [([-1], FVal.fin 1), ([0], FVal.fin 0), ([1], FVal.fin 1)])
    [[-1], [0], [1]] hrun [-1] (by simp)

/-! ### Claim C2: non-convergence reporting -/

lemma minimizeLoop_of_iterates (f : Pt → FVal) (dx : Pt) (k : ℕ) {xf : Pt} {cf : Cache} :
    ∀ n (x : Pt) (c : Cache), iterates f dx k n x c = some (xf, cf) →
      ∃ t, minimizeLoop f dx k n x c = (.nonConvergence xf cf, t) := by
  intro n
  induction n with
  | zero =>
    intro x c h
    simp only [iterates, Option.some.injEq, Prod.mk.injEq] at h
    exact ⟨[], by simp [minimizeLoop, h.1, h.2]⟩
  | succ n ih =>
    intro x c h
    cases hstep : stepMin f dx k x c with
    | none => rw [iterates, hstep] at h; exact Option.noConfusion h
    | some y =>
      obtain ⟨x', c', conv, t⟩ := y
      cases conv with
      | true => rw [iterates, hstep] at h; exact Option.noConfusion h
      | false =>
        rw [iterates, hstep] at h
        obtain ⟨t₂, ht₂⟩ := ih x' c' h
        refine ⟨t ++ t₂, ?_⟩
        simp [minimizeLoop, hstep, ht₂]

/-- C2: if `maxiter` iterations complete with every selected offset row
non-zero, the operation fails with the non-convergence error carrying the
final (non-optimal) point, and yields no `ok` result. -/
theorem c2_nonconvergence (f : Pt → FVal) (x : Pt) (c : Cache) (dx : Pt)
    (k maxiter : ℕ) (xf : Pt) (cf : Cache)
    (h : iterates f (normalizeParams x dx).2 k maxiter (normalizeParams x dx).1 c
      = some (xf, cf)) :
    ∃ t, minimize_discrete_stepwise_cpp f x c dx k maxiter =
      (.nonConvergence xf cf, t) :=
  minimizeLoop_of_iterates f (normalizeParams x dx).2 k maxiter
    (normalizeParams x dx).1 c h

/-- Witness for C2: `f(x) = -x[0]` with `maxiter = 2` reports
non-convergence at the final point `[2]`. -/
theorem c2_nonconvergence_witness :
    ∃ t, minimize_discrete_stepwise_cpp negHead [0] [] [1] 1 2 =
      (.nonConvergence [2]
        [([-1], .fin 1), ([0], .fin 0), ([1], .fin (-1)), ([2], .fin (-2))], t) := by
  have s1 : stepMin negHead [1] 1 [0] [] =
      some ([1], [([-1], .fin 1), ([0], .fin 0), ([1], .fin (-1))], false,
        [[-1], [0], [1]]) := by
    norm_num [stepMin, scanLoop, candidates, neighborOffsets, cacheLookup, isZeroRow,
      fltLt, FLT_MAX, negHead, List.range_succ, Int.toNat,
      List.getElem_cons_succ, List.getElem_cons_zero]
  have s2 : stepMin negHead [1] 1 [1]
      [([-1], .fin 1), ([0], .fin 0), ([1], .fin (-1))] =
      some ([2], [([-1], .fin 1), ([0], .fin 0), ([1], .fin (-1)), ([2], .fin (-2))],
        false, [[2]]) := by
    norm_num [stepMin, scanLoop, candidates, neighborOffsets, cacheLookup, isZeroRow,
      fltLt, FLT_MAX, negHead, List.range_succ, Int.toNat,
      List.getElem_cons_succ, List.getElem_cons_zero]
  apply c2_nonconvergence
  have hnorm : normalizeParams [(0 : ℚ)] [1] = ([0], [1]) := by
    norm_num [normalizeParams, List.replicate_succ]
  rw [hnorm]
  simp only [iterates, s1, s2]

/-! ### Claim C5: cache correctness / memoization -/

/-- C5: within one invocation the objective is invoked at most once per
distinct exact parameter vector (the trace is duplicate-free and disjoint
from the initial cache, and each invoked point is stored under its exact
coordinates with the computed value); across any later invocation sharing
the cache, none of these points is ever invoked again. -/
theorem c5_cache_correctness (f : Pt → FVal) (x : Pt) (c : Cache) (dx : Pt)
    (k m : ℕ) (res : MinimizeResult) (t : List Pt)
    (h : minimize_discrete_stepwise_cpp f x c dx k m = (res, t)) :
    t.Nodup ∧
    (∀ p ∈ t, cacheLookup c p = none) ∧
    (∀ p ∈ t, cacheLookup (resultCache res) p = some (f p)) ∧
    (∀ (f₂ : Pt → FVal) (x₂ dx₂ : Pt) (k₂ m₂ : ℕ) (res₂ : MinimizeResult)
      (t₂ : List Pt),
      minimize_discrete_stepwise_cpp f₂ x₂ (resultCache res) dx₂ k₂ m₂ = (res₂, t₂) →
      ∀ p ∈ t, p ∉ t₂) := by
  obtain ⟨hnd, hfresh, hstored⟩ := minimizeLoop_calls_spec f (normalizeParams x dx).2
    k m (normalizeParams x dx).1 c
  have h' : minimizeLoop f (normalizeParams x dx).2 k m (normalizeParams x dx).1 c
      = (res, t) := h
  rw [h'] at hnd hfresh hstored
  refine ⟨hnd, hfresh, hstored, ?_⟩
  intro f₂ x₂ dx₂ k₂ m₂ res₂ t₂ h₂ p hp hpt₂
  obtain ⟨_, hfresh₂, _⟩ := minimizeLoop_calls_spec f₂ (normalizeParams x₂ dx₂).2
    k₂ m₂ (normalizeParams x₂ dx₂).1 (resultCache res)
  have h₂' : minimizeLoop f₂ (normalizeParams x₂ dx₂).2 k₂ m₂
      (normalizeParams x₂ dx₂).1 (resultCache res) = (res₂, t₂) := h₂
  rw [h₂'] at hfresh₂
  have hnone := hfresh₂ p hpt₂
  rw [hstored p hp] at hnone
  exact Option.noConfusion hnone

/-- Witness for C5 at a concrete run of `f(x) = (x[0]-1)²`. -/
theorem c5_cache_correctness_witness :
    ([[(-1 : ℚ)], [0], [1], [2]] : List Pt).Nodup ∧
    (∀ p ∈ ([[(-1 : ℚ)], [0], [1], [2]] : List Pt), cacheLookup [] p = none) ∧
    (∀ p ∈ ([[(-1 : ℚ)], [0], [1], [2]] : List Pt),
      cacheLookup (resultCache (MinimizeResult.ok [1]
        [([-1], .fin 4), ([0], .fin 1), ([1], .fin 0), ([2], .fin 1)])) p
        = some (sqShift p)) ∧
    (∀ (f₂ : Pt → FVal) (x₂ dx₂ : Pt) (k₂ m₂ : ℕ) (res₂ : MinimizeResult)
      (t₂ : List Pt),
      minimize_discrete_stepwise_cpp f₂ x₂
        (resultCache (MinimizeResult.ok [1]
          [([-1], .fin 4), ([0], .fin 1), ([1], .fin 0), ([2], .fin 1)])) dx₂ k₂ m₂
        = (res₂, t₂) →
      ∀ p ∈ ([[(-1 : ℚ)], [0], [1], [2]] : List Pt), p ∉ t₂) := by
  have s1 : stepMin sqShift [1] 1 [0] [] =
      some ([1], [([-1], .fin 4), ([0], .fin 1), ([1], .fin 0)], false,
        [[-1], [0], [1]]) := by
    norm_num [stepMin, scanLoop, candidates, neighborOffsets, cacheLookup, isZeroRow,
      fltLt, FLT_MAX, sqShift, List.range_succ, Int.toNat,
      List.getElem_cons_succ, List.getElem_cons_zero]
  have s2 : stepMin sqShift [1] 1 [1] [([-1], .fin 4), ([0], .fin 1), ([1], .fin 0)] =
      some ([1], [([-1], .fin 4), ([0], .fin 1), ([1], .fin 0), ([2], .fin 1)], true,
        [[2]]) := by
    norm_num [stepMin, scanLoop, candidates, neighborOffsets, cacheLookup, isZeroRow,
      fltLt, FLT_MAX, sqShift, List.range_succ, Int.toNat,
      List.getElem_cons_succ, List.getElem_cons_zero]
  have hrun : minimize_discrete_stepwise_cpp sqShift [0] [] [1] 1 10 =
      (MinimizeResult.ok [1]
        [([-1], .fin 4), ([0], .fin 1), ([1], .fin 0), ([2], .fin 1)],
       [[-1], [0], [1], [2]]) := by
    show minimizeLoop sqShift (normalizeParams [0] [1]).2 1 10
      (normalizeParams [0] [1]).1 [] = _
    norm_num [normalizeParams, List.replicate_succ]
    simp only [minimizeLoop, s1, s2, Bool.false_eq_true, if_false, if_true,
      List.cons_append, List.nil_append]
  exact c5_cache_correctness sqShift [0] [] [1] 1 10 _ _ hrun

/-! ### Claim C4: selection and tie-breaking -/

/-- C4: in every iteration (one `stepMin` body), the selected candidate's
cached value is never strictly exceeded from below by any candidate
(no candidate has a strictly smaller value), and every candidate appearing
earlier in the row-major enumeration has a value different from the
selected one — the first minimum of the left-to-right scan wins ties.
Determinism of the trajectory is definitional here: the embedding of the
step is a pure function of its inputs. -/
theorem c4_selection (f : Pt → FVal) (dx : Pt) (k : ℕ) (x : Pt) (c : Cache)
    (x' : Pt) (c' : Cache) (conv : Bool) (t : List Pt)
    (h : stepMin f dx k x c = some (x', c', conv, t)) :
    ∃ i, ∃ hi : i < (candidates dx k x).length,
      x' = (candidates dx k x).get ⟨i, hi⟩ ∧
      (∀ j, ∀ hj : j < (candidates dx k x).length,
        fltLt (cacheValD c' ((candidates dx k x).get ⟨j, hj⟩)) (cacheValD c' x')
          = false) ∧
      (∀ j, ∀ hj : j < (candidates dx k x).length, j < i →
        cacheValD c' ((candidates dx k x).get ⟨j, hj⟩) ≠ cacheValD c' x') := by
  obtain ⟨i, hi, him, hx', hc', _, _⟩ := stepMin_eq_some h
  rcases scanLoop_main f (candidates dx k x) 0 c (.fin FLT_MAX) (-1) with
    ⟨_, h2⟩ | ⟨j0, hj0, h1, _, h3⟩
  · rw [h2] at him; omega
  · rw [h1] at him
    have hij : i = j0 := by omega
    subst hij
    have hval : cacheValD c' x' = (scanLoop f (candidates dx k x) 0 c
        (.fin FLT_MAX) (-1)).resMin := by
      rw [hc', hx']
      exact h3
    refine ⟨i, hi, hx', ?_, ?_⟩
    · intro j hj
      rw [hval, hc']
      exact scanLoop_no_smaller f (candidates dx k x) 0 c (.fin FLT_MAX) (-1) _
        (List.get_mem _ j hj)
    · intro j hj hji
      rw [hval, hc']
      exact scanLoop_first_min f (candidates dx k x) 0 c (.fin FLT_MAX) (-1)
        (by omega) j hj (by rw [h1]; omega)

/-! ### Claim C10: selection-index safety -/

/-- C10: if at least one candidate's recorded value is a non-NaN value
strictly below `__FLT_MAX__`, the scan's `idxMin` is a valid row index in
`[0, (2k+1)^d)` and the iteration produces a defined result; if every
candidate's recorded value is NaN, `idxMin` stays `-1` and the subsequent
row access is out of bounds (the iteration has no defined result). -/
theorem c10_idxmin_safety (f : Pt → FVal) (dx : Pt) (k : ℕ) (x : Pt) (c : Cache)
    (c' : Cache) (rm' : FVal) (im' : ℤ) (t' : List Pt)
    (hscan : scanLoop f (candidates dx k x) 0 c (.fin FLT_MAX) (-1)
      = ⟨c', rm', im', t'⟩) :
    ((∃ p ∈ candidates dx k x, ∃ q, cacheValD c' p = .fin q ∧ q < FLT_MAX) →
      0 ≤ im' ∧ im'.toNat < (candidates dx k x).length ∧
      (stepMin f dx k x c).isSome = true) ∧
    ((∀ p ∈ candidates dx k x, cacheValD c' p = .nan) →
      im' = -1 ∧ stepMin f dx k x c = none) := by
  have hcache : (scanLoop f (candidates dx k x) 0 c (.fin FLT_MAX) (-1)).cache = c' := by
    rw [hscan]
  have hrm : (scanLoop f (candidates dx k x) 0 c (.fin FLT_MAX) (-1)).resMin = rm' := by
    rw [hscan]
  have him : (scanLoop f (candidates dx k x) 0 c (.fin FLT_MAX) (-1)).idxMin = im' := by
    rw [hscan]
  constructor
  · rintro ⟨p, hp, q, hq, hqlt⟩
    rcases scanLoop_main f (candidates dx k x) 0 c (.fin FLT_MAX) (-1) with
      ⟨h1, _⟩ | ⟨j0, hj0, h1, _, _⟩
    · exfalso
      have hns := scanLoop_no_smaller f (candidates dx k x) 0 c (.fin FLT_MAX) (-1) p hp
      rw [hcache, h1, hq] at hns
      simp [fltLt, hqlt] at hns
    · rw [him] at h1
      have hcond : 0 ≤ im' ∧ im'.toNat < (candidates dx k x).length :=
        ⟨by omega, by omega⟩
      refine ⟨hcond.1, hcond.2, ?_⟩
      simp only [stepMin, hscan]
      rw [dif_pos hcond]
      rfl
  · intro hall
    rcases scanLoop_main f (candidates dx k x) 0 c (.fin FLT_MAX) (-1) with
      ⟨_, h2⟩ | ⟨j0, hj0, _, h2, h3⟩
    · rw [him] at h2
      refine ⟨h2, ?_⟩
      simp only [stepMin, hscan]
      rw [dif_neg]
      rintro ⟨ha, _⟩
      omega
    · exfalso
      obtain ⟨r, hr, _⟩ := fltLt_fin_of_lt_fin h2
      rw [hcache] at h3
      rw [hall _ (List.get_mem _ j0 hj0)] at h3
      rw [hr] at h3
      exact FVal.noConfusion h3

/-- Witness for C10: the all-NaN objective leaves `idxMin = -1` and the
iteration undefined. -/
theorem c10_idxmin_safety_witness :
    ((-1 : ℤ)) = -1 ∧ stepMin nanObj [1] 1 [0] [] = none := by
  have hscan : scanLoop nanObj (candidates [(1 : ℚ)] 1 [0]) 0 [] (.fin FLT_MAX) (-1) =
      ⟨[([-1], .nan), ([0], .nan), ([1], .nan)], .fin FLT_MAX, -1, [[-1], [0], [1]]⟩ := by
    norm_num [scanLoop, candidates, neighborOffsets, cacheLookup, fltLt, FLT_MAX,
      nanObj, List.range_succ]
  exact (c10_idxmin_safety nanObj [1] 1 [0] [] _ _ _ _ hscan).2
    (by norm_num [candidates, neighborOffsets, cacheValD, cacheLookup, nanObj,
      List.range_succ])

/-! ### Claim C1: the returned point is a lattice-local minimum -/

lemma candidates_get_eq (dx : Pt) (k : ℕ) (x : Pt) (i : ℕ)
    (hi : i < (candidates dx k x).length) :
    (candidates dx k x).get ⟨i, hi⟩ =
      List.zipWith (· + ·) ((neighborOffsets dx k).getD i []) x := by
  have hi' : i < (neighborOffsets dx k).length := by
    simpa [candidates] using hi
  rw [List.getD_eq_get _ _ hi']
  simp [candidates, List.get_map]

lemma candidates_get_zero {dx x : Pt} {k : ℕ} (hlen : x.length = dx.length)
    {i : ℕ} (hi : i < (candidates dx k x).length)
    (hz : isZeroRow ((neighborOffsets dx k).getD i []) = true) :
    (candidates dx k x).get ⟨i, hi⟩ = x := by
  rw [candidates_get_eq]
  apply zipWith_add_of_isZeroRow hz
  have hi' : i < (neighborOffsets dx k).length := by
    simpa [candidates] using hi
  rw [List.getD_eq_get _ _ hi', neighborOffsets_row_length (List.get_mem _ i hi'), hlen]

lemma minimizeLoop_ok_spec (f : Pt → FVal) (dx : Pt) (k : ℕ) :
    ∀ n (x : Pt) (c : Cache) (x' : Pt) (c' : Cache) (t : List Pt),
      x.length = dx.length →
      minimizeLoop f dx k n x c = (.ok x' c', t) →
      x'.length = dx.length ∧
      ∃ v₀, cacheLookup c' x' = some v₀ ∧
        ∀ o ∈ neighborOffsets dx k,
          ∃ v, cacheLookup c' (List.zipWith (· + ·) o x') = some v ∧
            fltLt v v₀ = false := by
  intro n
  induction n with
  | zero =>
    intro x c x' c' t _ h
    simp only [minimizeLoop, Prod.mk.injEq] at h
    exact absurd h.1 (by intro hh; exact MinimizeResult.noConfusion hh)
  | succ n ih =>
    intro x c x' c' t hlen h
    cases hstep : stepMin f dx k x c with
    | none =>
      simp only [minimizeLoop, hstep, Prod.mk.injEq] at h
      exact absurd h.1 (by intro hh; exact MinimizeResult.noConfusion hh)
    | some y =>
      obtain ⟨x₁, c₁, conv, t₁⟩ := y
      obtain ⟨i, hi, him, hx₁, hc₁, hconv, _⟩ := stepMin_eq_some hstep
      have hlen₁ : x₁.length = dx.length :=
        hx₁ ▸ candidate_row_length hlen (List.get_mem _ i hi)
      cases conv with
      | false =>
        simp only [minimizeLoop, hstep, Bool.false_eq_true, if_false,
          Prod.mk.injEq] at h
        exact ih x₁ c₁ x' c' _ hlen₁ (Prod.ext h.1 rfl)
      | true =>
        simp only [minimizeLoop, hstep, if_true] at h
        simp only [Prod.mk.injEq, MinimizeResult.ok.injEq] at h
        obtain ⟨⟨hx', hc'⟩, _⟩ := h
        have hzero : isZeroRow ((neighborOffsets dx k).getD i []) = true := hconv.symm
        have hgz : (candidates dx k x).get ⟨i, hi⟩ = x :=
          candidates_get_zero hlen hi hzero
        have he1 : x' = x := by rw [← hx', hx₁, hgz]
        have he2 : c' = (scanLoop f (candidates dx k x) 0 c
            (.fin FLT_MAX) (-1)).cache := by rw [← hc', hc₁]
        rw [he1, he2]
        refine ⟨hlen, ?_⟩
        rcases scanLoop_main f (candidates dx k x) 0 c (.fin FLT_MAX) (-1) with
          ⟨_, h2⟩ | ⟨j0, hj0, h1, _, h3⟩
        · rw [h2] at him; omega
        · rw [h1] at him
          have hij : i = j0 := by omega
          subst hij
          rw [hgz] at h3
          have hioff : i < (neighborOffsets dx k).length := by
            simpa [candidates] using hi
          have hmem : x ∈ candidates dx k x := by
            refine List.mem_map.mpr ⟨(neighborOffsets dx k).getD i [], ?_, ?_⟩
            · rw [List.getD_eq_get _ _ hioff]
              exact List.get_mem _ i hioff
            · apply zipWith_add_of_isZeroRow hzero
              rw [List.getD_eq_get _ _ hioff,
                neighborOffsets_row_length (List.get_mem _ i hioff), hlen]
          obtain ⟨v₀, hv₀⟩ := scanLoop_mem_isSome f (candidates dx k x) 0 c
            (.fin FLT_MAX) (-1) hmem
          have hv₀val : v₀ = (scanLoop f (candidates dx k x) 0 c
              (.fin FLT_MAX) (-1)).resMin := by
            rw [← cacheValD_eq_of_lookup hv₀]
            exact h3
          refine ⟨v₀, hv₀, ?_⟩
          intro o ho
          have hcmem : List.zipWith (· + ·) o x ∈ candidates dx k x :=
            List.mem_map.mpr ⟨o, ho, rfl⟩
          obtain ⟨v, hv⟩ := scanLoop_mem_isSome f (candidates dx k x) 0 c
            (.fin FLT_MAX) (-1) hcmem
          refine ⟨v, hv, ?_⟩
          have hns := scanLoop_no_smaller f (candidates dx k x) 0 c
            (.fin FLT_MAX) (-1) _ hcmem
          rw [cacheValD_eq_of_lookup hv] at hns
          rw [hv₀val]
          exact hns

/-- C1: whenever the minimizer returns a point, no neighbor of that point
within `k` lattice steps has a strictly smaller objective value than the
point, as recorded in the shared cache. -/
theorem c1_local_min (f : Pt → FVal) (x : Pt) (c : Cache) (dx : Pt)
    (k maxiter : ℕ) (x' : Pt) (c' : Cache)
    (hlen : (normalizeParams x dx).1.length = (normalizeParams x dx).2.length)
    (h : (minimize_discrete_stepwise_cpp f x c dx k maxiter).1 = .ok x' c') :
    ∃ v₀, cacheLookup c' x' = some v₀ ∧
      ∀ o ∈ neighborOffsets (normalizeParams x dx).2 k,
        ∃ v, cacheLookup c' (List.zipWith (· + ·) o x') = some v ∧
          fltLt v v₀ = false := by
  have hfull : minimizeLoop f (normalizeParams x dx).2 k maxiter
      (normalizeParams x dx).1 c =
      (.ok x' c', (minimize_discrete_stepwise_cpp f x c dx k maxiter).2) := by
    have hh : (minimizeLoop f (normalizeParams x dx).2 k maxiter
        (normalizeParams x dx).1 c).1 = .ok x' c' := h
    exact Prod.ext hh rfl
  exact (minimizeLoop_ok_spec f (normalizeParams x dx).2 k maxiter
    (normalizeParams x dx).1 c x' c' _ hlen hfull).2

/-- Witness for C1 on the run `f(x) = (x[0]-1)²` from `[0]`. -/
theorem c1_local_min_witness :
    ∃ v₀, cacheLookup [([-1], FVal.fin 4), ([0], FVal.fin 1), ([1], FVal.fin 0),
        ([2], FVal.fin 1)] [1] = some v₀ ∧
      ∀ o ∈ neighborOffsets (normalizeParams [(0 : ℚ)] [1]).2 1,
        ∃ v, cacheLookup [([-1], FVal.fin 4), ([0], FVal.fin 1), ([1], FVal.fin 0),
          ([2], FVal.fin 1)] (List.zipWith (· + ·) o [1]) = some v ∧
          fltLt v v₀ = false := by
  have s1 : stepMin sqShift [1] 1 [0] [] =
      some ([1], [([-1], .fin 4), ([0], .fin 1), ([1], .fin 0)], false,
        [[-1], [0], [1]]) := by
    norm_num [stepMin, scanLoop, candidates, neighborOffsets, cacheLookup, isZeroRow,
      fltLt, FLT_MAX, sqShift, List.range_succ, Int.toNat,
      List.getElem_cons_succ, List.getElem_cons_zero]
  have s2 : stepMin sqShift [1] 1 [1] [([-1], .fin 4), ([0], .fin 1), ([1], .fin 0)] =
      some ([1], [([-1], .fin 4), ([0], .fin 1), ([1], .fin 0), ([2], .fin 1)], true,
        [[2]]) := by
    norm_num [stepMin, scanLoop, candidates, neighborOffsets, cacheLookup, isZeroRow,
      fltLt, FLT_MAX, sqShift, List.range_succ, Int.toNat,
      List.getElem_cons_succ, List.getElem_cons_zero]
  have hrun : minimize_discrete_stepwise_cpp sqShift [0] [] [1] 1 10 =
      (MinimizeResult.ok [1]
        [([-1], .fin 4), ([0], .fin 1), ([1], .fin 0), ([2], .fin 1)],
       [[-1], [0], [1], [2]]) := by
    show minimizeLoop sqShift (normalizeParams [0] [1]).2 1 10
      (normalizeParams [0] [1]).1 [] = _
    norm_num [normalizeParams, List.replicate_succ]
    simp only [minimizeLoop, s1, s2, Bool.false_eq_true, if_false, if_true,
      List.cons_append, List.nil_append]
  exact c1_local_min sqShift [0] [] [1] 1 10 [1] _
    (by norm_num [normalizeParams, List.replicate_succ]) (by rw [hrun])

/-! ### Claim C3: idempotence at a minimum -/

/-- Counterexample to C3 as stated: for the constant objective, every point
is a fixed point (its value is `≤` the value of every neighbor within range
`k = 1`), yet starting at `[0]` with `maxiter = 3` the optimizer does not
converge and does not return `[0]`: the constant ties are resolved toward
the first-enumerated neighbor `[-1]`, so the iteration drifts left and ends
in the non-convergence failure at `[-3]`. -/
theorem c3_counterexample :
    ((neighborOffsets [(1 : ℚ)] 1).all (fun o =>
      !fltLt (constZero (List.zipWith (· + ·) o [0])) (constZero [0]))) = true ∧
    minimize_discrete_stepwise_cpp constZero [0] [] [1] 1 3 =
      (.nonConvergence [-3]
        [([-1], .fin 0), ([0], .fin 0), ([1], .fin 0), ([-2], .fin 0),
         ([-3], .fin 0)],
       [[-1], [0], [1], [-2], [-3]]) := by
  constructor
  · norm_num [neighborOffsets, constZero, fltLt, List.range_succ]
  · have s1 : stepMin constZero [1] 1 [0] [] =
        some ([-1], [([-1], .fin 0), ([0], .fin 0), ([1], .fin 0)], false,
          [[-1], [0], [1]]) := by
      norm_num [stepMin, scanLoop, candidates, neighborOffsets, cacheLookup, isZeroRow,
        fltLt, FLT_MAX, constZero, List.range_succ, Int.toNat,
        List.getElem_cons_succ, List.getElem_cons_zero]
    have s2 : stepMin constZero [1] 1 [-1]
        [([-1], .fin 0), ([0], .fin 0), ([1], .fin 0)] =
        some ([-2], [([-1], .fin 0), ([0], .fin 0), ([1], .fin 0), ([-2], .fin 0)],
          false, [[-2]]) := by
      norm_num [stepMin, scanLoop, candidates, neighborOffsets, cacheLookup, isZeroRow,
        fltLt, FLT_MAX, constZero, List.range_succ, Int.toNat,
        List.getElem_cons_succ, List.getElem_cons_zero]
    have s3 : stepMin constZero [1] 1 [-2]
        [([-1], .fin 0), ([0], .fin 0), ([1], .fin 0), ([-2], .fin 0)] =
        some ([-3], [([-1], .fin 0), ([0], .fin 0), ([1], .fin 0), ([-2], .fin 0),
          ([-3], .fin 0)], false, [[-3]]) := by
      norm_num [stepMin, scanLoop, candidates, neighborOffsets, cacheLookup, isZeroRow,
        fltLt, FLT_MAX, constZero, List.range_succ, Int.toNat,
        List.getElem_cons_succ, List.getElem_cons_zero]
    show minimizeLoop constZero (normalizeParams [0] [1]).2 1 3
      (normalizeParams [0] [1]).1 [] = _
    norm_num [normalizeParams, List.replicate_succ]
    simp only [minimizeLoop, s1, s2, s3, Bool.false_eq_true, if_false,
      List.cons_append, List.nil_append]

/-- C3 amended: the claim holds once the fixed point is additionally not
tied with any candidate enumerated before the first all-zero offset row
(the code keeps the first minimum of the scan, so an earlier tie wins over
the zero offset and the optimizer moves instead of converging; see the
counterexample). Under that strengthening the optimizer converges on the
first iteration, for every iteration budget `m ≥ 1`, and returns `x`
unchanged. -/
theorem c3_idempotence_amended (f : Pt → FVal) (x : Pt) (c : Cache) (dx : Pt)
    (k : ℕ) (q₀ : ℚ)
    (hnorm : normalizeParams x dx = (x, dx))
    (hlen : x.length = dx.length)
    (hv : effVal f c x = .fin q₀)
    (hmax : q₀ < FLT_MAX)
    (hle : ∀ o ∈ neighborOffsets dx k,
      fltLt (effVal f c (List.zipWith (· + ·) o x)) (.fin q₀) = false)
    (htie : ∀ j, j < firstIdxWith isZeroRow (neighborOffsets dx k) →
      effVal f c ((candidates dx k x).getD j []) ≠ .fin q₀) :
    ∃ c', ∀ m, 1 ≤ m →
      (minimize_discrete_stepwise_cpp f x c dx k m).1 = .ok x c' := by
  have hex : ∃ o ∈ neighborOffsets dx k, isZeroRow o = true := by
    have hzm := zmid_row_isZero dx k
    have hzl : k * gsum (2 * k + 1) dx.length < (neighborOffsets dx k).length := by
      rw [neighborOffsets_length]; exact zmid_lt k dx.length
    rw [List.getD_eq_get _ _ hzl] at hzm
    exact ⟨_, List.get_mem _ _ hzl, hzm⟩
  have hz : firstIdxWith isZeroRow (neighborOffsets dx k) <
      (neighborOffsets dx k).length := firstIdxWith_lt_length hex
  have hzc : firstIdxWith isZeroRow (neighborOffsets dx k) <
      (candidates dx k x).length := by
    simpa [candidates] using hz
  have hzrow : isZeroRow ((neighborOffsets dx k).getD
      (firstIdxWith isZeroRow (neighborOffsets dx k)) []) = true := by
    rw [List.getD_eq_get _ _ hz]
    exact firstIdxWith_get hz
  have hgz : (candidates dx k x).get
      ⟨firstIdxWith isZeroRow (neighborOffsets dx k), hzc⟩ = x :=
    candidates_get_zero hlen hzc hzrow
  have hmem : x ∈ candidates dx k x := by
    refine List.mem_map.mpr ⟨(neighborOffsets dx k).getD
      (firstIdxWith isZeroRow (neighborOffsets dx k)) [], ?_, ?_⟩
    · rw [List.getD_eq_get _ _ hz]
      exact List.get_mem _ _ hz
    · apply zipWith_add_of_isZeroRow hzrow
      rw [List.getD_eq_get _ _ hz,
        neighborOffsets_row_length (List.get_mem _ _ hz), hlen]
  have hvx : cacheValD (scanLoop f (candidates dx k x) 0 c
      (.fin FLT_MAX) (-1)).cache x = .fin q₀ := by
    rw [scanLoop_mem_lookup f (candidates dx k x) 0 c (.fin FLT_MAX) (-1) hmem]
    exact hv
  rcases scanLoop_main f (candidates dx k x) 0 c (.fin FLT_MAX) (-1) with
    ⟨h1, _⟩ | ⟨j0, hj0, h1, h2, h3⟩
  · exfalso
    have hns := scanLoop_no_smaller f (candidates dx k x) 0 c (.fin FLT_MAX) (-1)
      x hmem
    rw [hvx, h1] at hns
    simp [fltLt, hmax] at hns
  · obtain ⟨r, hrfin, _⟩ := fltLt_fin_of_lt_fin h2
    have hnsx := scanLoop_no_smaller f (candidates dx k x) 0 c (.fin FLT_MAX) (-1)
      x hmem
    rw [hvx, hrfin] at hnsx
    have hsel_val : cacheValD (scanLoop f (candidates dx k x) 0 c
        (.fin FLT_MAX) (-1)).cache ((candidates dx k x).get ⟨j0, hj0⟩) =
        effVal f c ((candidates dx k x).get ⟨j0, hj0⟩) :=
      scanLoop_mem_lookup f (candidates dx k x) 0 c (.fin FLT_MAX) (-1)
        (List.get_mem _ j0 hj0)
    have hj0off : j0 < (neighborOffsets dx k).length := by
      simpa [candidates] using hj0
    have hsel_le : fltLt (effVal f c ((candidates dx k x).get ⟨j0, hj0⟩))
        (.fin q₀) = false := by
      rw [candidates_get_eq dx k x j0 hj0]
      apply hle
      rw [List.getD_eq_get _ _ hj0off]
      exact List.get_mem _ _ hj0off
    have hrm_le : fltLt (.fin r) (.fin q₀) = false := by
      rw [← hrfin, ← h3, hsel_val]
      exact hsel_le
    have hreq : r = q₀ := fltLt_eq_of_not_lt hrm_le hnsx
    have hrm_q : (scanLoop f (candidates dx k x) 0 c (.fin FLT_MAX) (-1)).resMin
        = .fin q₀ := by rw [hrfin, hreq]
    have hj0z : j0 = firstIdxWith isZeroRow (neighborOffsets dx k) := by
      rcases lt_trichotomy j0 (firstIdxWith isZeroRow (neighborOffsets dx k)) with
        hlt | heq | hgt
      · exfalso
        apply htie j0 hlt
        rw [List.getD_eq_get _ _ hj0, ← hsel_val, h3, hrm_q]
      · exact heq
      · exfalso
        have hfirst := scanLoop_first_min f (candidates dx k x) 0 c (.fin FLT_MAX)
          (-1) (by omega) (firstIdxWith isZeroRow (neighborOffsets dx k)) hzc
          (by rw [h1]; omega)
        apply hfirst
        rw [hgz, hvx, hrm_q]
  -- hj0z established: the selected index is the first all-zero row
    have hstep : stepMin f dx k x c = some (x,
        (scanLoop f (candidates dx k x) 0 c (.fin FLT_MAX) (-1)).cache, true,
        (scanLoop f (candidates dx k x) 0 c (.fin FLT_MAX) (-1)).calls) := by
      have hcond : 0 ≤ (scanLoop f (candidates dx k x) 0 c
          (.fin FLT_MAX) (-1)).idxMin ∧
          ((scanLoop f (candidates dx k x) 0 c (.fin FLT_MAX) (-1)).idxMin).toNat <
            (candidates dx k x).length := ⟨by omega, by omega⟩
      have htn : ((scanLoop f (candidates dx k x) 0 c
          (.fin FLT_MAX) (-1)).idxMin).toNat =
          firstIdxWith isZeroRow (neighborOffsets dx k) := by omega
      simp only [stepMin]
      rw [dif_pos hcond]
      simp only [htn]
      rw [hzrow]
      congr 1
      exact congrArg (fun z => (z, (scanLoop f (candidates dx k x) 0 c
        (.fin FLT_MAX) (-1)).cache, true, (scanLoop f (candidates dx k x) 0 c
        (.fin FLT_MAX) (-1)).calls)) hgz
    refine ⟨(scanLoop f (candidates dx k x) 0 c (.fin FLT_MAX) (-1)).cache, ?_⟩
    intro m hm
    cases m with
    | zero => omega
    | succ mm =>
      have : minimize_discrete_stepwise_cpp f x c dx k (mm + 1) =
          minimizeLoop f dx k (mm + 1) x c := by
        simp only [minimize_discrete_stepwise_cpp, hnorm]
      rw [this]
      simp only [minimizeLoop, hstep, if_true]

/-- Witness for the amended C3: `f(x) = x[0]²` at the strict minimum `[0]`. -/
theorem c3_idempotence_amended_witness :
    ∃ c', ∀ m, 1 ≤ m →
      (minimize_discrete_stepwise_cpp sqHead [0] [] [1] 1 m).1 = .ok [0] c' := by
  apply c3_idempotence_amended sqHead [0] [] [1] 1 0
  · norm_num [normalizeParams, List.replicate_succ]
  · rfl
  · norm_num [effVal, cacheLookup, sqHead]
  · norm_num [FLT_MAX]
  · norm_num [neighborOffsets, effVal, cacheLookup, sqHead, fltLt, List.range_succ]
  · norm_num [firstIdxWith, isZeroRow, neighborOffsets, candidates, effVal,
      cacheLookup, sqHead, List.range_succ]

/-! ### Claim C6: shape of the neighbor lattice -/

/-- Counterexample to C6 as stated: with the step vector `[0]` (a zero
coordinate) and `k = 1`, the all-zero offset vector occurs three times in
the lattice, not exactly once. -/
theorem c6_counterexample :
    (neighborOffsets [(0 : ℚ)] 1).countP
      (fun o => decide (o = List.replicate 1 (0 : ℚ))) = 3 := by
  norm_num [neighborOffsets, List.range_succ, List.replicate]

/-- C6 amended: the lattice has exactly `(2k+1)^d` rows and row `i`,
coordinate `j` is `dx[j] * ((i mod (range_j*(2k+1))) / range_j - k)` with
`range_j = (2k+1)^(d-j-1)`, unconditionally; the all-zero offset vector
occurs exactly once provided every coordinate of the step vector is
nonzero (with a zero coordinate it occurs several times — see the
counterexample). -/
theorem c6_lattice_amended (dx : Pt) (k : ℕ) (hnz : ∀ q ∈ dx, q ≠ 0) :
    (neighborOffsets dx k).length = (2 * k + 1) ^ dx.length ∧
    (∀ i, i < (2 * k + 1) ^ dx.length → ∀ j, j < dx.length →
      ((neighborOffsets dx k).getD i []).getD j 0 =
        dx.getD j 0 *
          (((i % ((2 * k + 1) ^ (dx.length - j - 1) * (2 * k + 1)) /
              (2 * k + 1) ^ (dx.length - j - 1) : ℕ) : ℤ) - (k : ℤ) : ℤ)) ∧
    (neighborOffsets dx k).countP
      (fun o => decide (o = List.replicate dx.length (0 : ℚ))) = 1 := by
  refine ⟨neighborOffsets_length dx k, ?_, zero_row_countP dx k hnz⟩
  intro i hi j hj
  rw [neighborOffsets_getD dx k i hi]
  rw [List.getD_eq_get _ _ (by simpa using hj)]
  simp [List.get_map, List.get_range]

/-- Witness for the amended C6 at `dx = [1, 1]`, `k = 1`. -/
theorem c6_lattice_amended_witness :
    (neighborOffsets [(1 : ℚ), 1] 1).length = (2 * 1 + 1) ^ (2 : ℕ) ∧
    (∀ i, i < (2 * 1 + 1) ^ (2 : ℕ) → ∀ j, j < 2 →
      ((neighborOffsets [(1 : ℚ), 1] 1).getD i []).getD j 0 =
        ([(1 : ℚ), 1] : Pt).getD j 0 *
          (((i % ((2 * 1 + 1) ^ (2 - j - 1) * (2 * 1 + 1)) /
              (2 * 1 + 1) ^ (2 - j - 1) : ℕ) : ℤ) - ((1 : ℕ) : ℤ) : ℤ)) ∧
    (neighborOffsets [(1 : ℚ), 1] 1).countP
      (fun o => decide (o = List.replicate ([(1 : ℚ), 1] : Pt).length (0 : ℚ))) = 1 := by
  have h := c6_lattice_amended [(1 : ℚ), 1] 1 (by norm_num)
  simpa using h

/-- Witness for C4 on a constant objective (a three-way tie): the selected
candidate is the first of the enumeration. -/
theorem c4_selection_witness :
    ∃ i, ∃ hi : i < (candidates [(1 : ℚ)] 1 [0]).length,
      ([(-1 : ℚ)] : Pt) = (candidates [(1 : ℚ)] 1 [0]).get ⟨i, hi⟩ ∧
      (∀ j, ∀ hj : j < (candidates [(1 : ℚ)] 1 [0]).length,
        fltLt (cacheValD [([-1], .fin 0), ([0], .fin 0), ([1], .fin 0)]
          ((candidates [(1 : ℚ)] 1 [0]).get ⟨j, hj⟩))
          (cacheValD [([-1], .fin 0), ([0], .fin 0), ([1], .fin 0)] [-1]) = false) ∧
      (∀ j, ∀ hj : j < (candidates [(1 : ℚ)] 1 [0]).length, j < i →
        cacheValD [([-1], .fin 0), ([0], .fin 0), ([1], .fin 0)]
          ((candidates [(1 : ℚ)] 1 [0]).get ⟨j, hj⟩) ≠
          cacheValD [([-1], .fin 0), ([0], .fin 0), ([1], .fin 0)] [-1]) := by
  have s1 : stepMin constZero [1] 1 [0] [] =
      some ([-1], [([-1], .fin 0), ([0], .fin 0), ([1], .fin 0)], false,
        [[-1], [0], [1]]) := by
    norm_num [stepMin, scanLoop, candidates, neighborOffsets, cacheLookup, isZeroRow,
      fltLt, FLT_MAX, constZero, List.range_succ, Int.toNat,
      List.getElem_cons_succ, List.getElem_cons_zero]
  exact c4_selection constZero [1] 1 [0] [] [-1]
    [([-1], .fin 0), ([0], .fin 0), ([1], .fin 0)] false [[-1], [0], [1]] s1
